import Mathlib

/-!
Verification of the sse-agent SSE (Server-Sent-Events) decoder.

Shallow embedding conventions:
* Bytes are `Nat` values (< 256 on every input we consider); Rust `String`s
  are represented by their UTF-8 byte sequences (`List Nat`), so `push('\n')`
  becomes appending byte 10 and `value.contains('\u{0000}')` becomes
  membership of byte 0 (NUL is the only character encoded by byte 0).
* `str::from_utf8` is modelled by the validity predicate `utf8Valid`; on
  success the model keeps the same bytes.  The `Utf8Error` payload carried by
  `parser::Error::Utf8` is not inspected anywhere, so the embedded `Error`
  has a single bare constructor.
* The Rust `while let` loop of `Parser::next` consumes at least one buffered
  byte per iteration, so it is embedded as the structurally recursive
  `nextFuel` driven by `buf.length + 1` units of fuel; `nextFuel_stable`
  proves the result is independent of the fuel once it exceeds the buffer
  length, certifying that the fuel is a pure termination device.
* Asynchronous polling (`futures_core::Stream`) is embedded by scripting the
  upstream source as a list of poll outcomes consumed one per poll.
-/

deriving instance DecidableEq for Except

namespace SseAgent

/-- Byte constant `CR` from src/parser.rs. -/
def CR : Nat := 13

/-- Byte constant `LF` from src/parser.rs. -/
def LF : Nat := 10

/-- Byte constant `COLON` from src/parser.rs. -/
def COLON : Nat := 58

/-- The bytes of `b"event"`. -/
def eventName : List Nat := [101, 118, 101, 110, 116]

/-- The bytes of `b"data"`. -/
def dataName : List Nat := [100, 97, 116, 97]

/-- The bytes of `b"id"`. -/
def idName : List Nat := [105, 100]

/-- The bytes of `b"retry"`. -/
def retryName : List Nat := [114, 101, 116, 114, 121]

/-- Classification of a UTF-8 leading byte, faithful to Rust
`str::from_utf8` (the standard UTF-8 table): the result is `none` for an
invalid leader, otherwise `some st` where `st = none` for a complete ASCII
scalar and `st = some (k, lo, hi)` when `k` continuation bytes follow, the
next one restricted to `lo..hi` (later ones to 80..BF). -/
def utf8Byte (c : Nat) : Option (Option (Nat × Nat × Nat)) :=
  if c ≤ 127 then some none
  else if 194 ≤ c ∧ c ≤ 223 then some (some (1, 128, 191))
  else if c = 224 then some (some (2, 160, 191))
  else if (225 ≤ c ∧ c ≤ 236) ∨ (238 ≤ c ∧ c ≤ 239) then some (some (2, 128, 191))
  else if c = 237 then some (some (2, 128, 159))
  else if c = 240 then some (some (3, 144, 191))
  else if 241 ≤ c ∧ c ≤ 243 then some (some (3, 128, 191))
  else if c = 244 then some (some (3, 128, 143))
  else none

/-- The validation loop of Rust `str::from_utf8`: read a leader, then the
announced number of continuation bytes, each within its admissible range. -/
def utf8Go : Option (Nat × Nat × Nat) → List Nat → Bool
  | none, [] => true
  | some _, [] => false
  | none, c :: cs =>
    match utf8Byte c with
    | none => false
    | some st => utf8Go st cs
  | some (k, lo, hi), c :: cs =>
    if lo ≤ c ∧ c ≤ hi then
      utf8Go (if k = 1 then none else some (k - 1, 128, 191)) cs
    else false

/-- Validity of a byte sequence as UTF-8, faithful to Rust
`str::from_utf8`. -/
def utf8Valid (l : List Nat) : Bool := utf8Go none l

/-- `memchr::memchr2 a b haystack`: index of the first byte equal to
`a` or to `b`. -/
def memchr2 (a b : Nat) : List Nat → Option Nat
  | [] => none
  | c :: cs => if c = a ∨ c = b then some 0 else (memchr2 a b cs).map Nat.succ

/-- `memchr::memchr a haystack`: index of the first byte equal to `a`. -/
def memchr (a : Nat) : List Nat → Option Nat
  | [] => none
  | c :: cs => if c = a then some 0 else (memchr a cs).map Nat.succ

/-- Embedding of `parser::Error`; the `Utf8Error` payload is never inspected
by the code under verification and is dropped. -/
inductive Error where
  | utf8 : Error
deriving DecidableEq

/-- Embedding of `crate::Event` (src/event.rs); `String` fields are kept as
UTF-8 byte lists. -/
structure Event where
  event : List Nat
  data : List Nat
  last_event_id : Option (List Nat)
deriving DecidableEq

/-- Embedding of `parser::EventBuilder`. -/
structure EventBuilder where
  event_type : Option (List Nat)
  data : Option (List Nat)
  last_event_id : Option (List Nat)
deriving DecidableEq

/-- `EventBuilder::default()`. -/
def EventBuilder.default : EventBuilder := ⟨none, none, none⟩

/-- The `match &mut self.data` block of the `data` branch of
`EventBuilder::add_field`: push an LF before appending when data already has
content, otherwise set directly. -/
def dataJoined : Option (List Nat) → List Nat → List Nat
  | some d, value => d ++ LF :: value
  | none, value => value

/-- Embedding of `EventBuilder::add_field`.  Rust first decodes the value as
UTF-8 (`?` propagates the error before any state change), then dispatches on
the field name through an else-if chain. -/
def EventBuilder.add_field (b : EventBuilder) (name value : List Nat) :
    Except Error EventBuilder :=
  if utf8Valid value then
    if name = eventName then
      .ok { b with event_type := some value }
    else if name = dataName then
      .ok { b with data := some (dataJoined b.data value) }
    else if name = idName ∧ 0 ∉ value then
      .ok { b with last_event_id := some value }
    else if name = retryName ∧ value.all (fun c => 48 ≤ c && c ≤ 57) then
      .ok b
    else
      .ok b
  else
    .error .utf8

/-- Embedding of `EventBuilder::ready`. -/
def EventBuilder.ready (b : EventBuilder) : Bool :=
  b.event_type.isSome || b.data.isSome || b.last_event_id.isSome

/-- Embedding of `EventBuilder::build_and_clear`; the Rust `take` calls both
produce the event fields and reset the builder, and the `Result` returned is
always `Ok`, so the model returns the pair directly. -/
def EventBuilder.build_and_clear (b : EventBuilder) : Event × EventBuilder :=
  (⟨b.event_type.getD [], b.data.getD [], b.last_event_id⟩, ⟨none, none, none⟩)

/-- Embedding of `parser::Parser`. -/
structure Parser where
  buf : List Nat
  builder : EventBuilder
deriving DecidableEq

/-- `Parser::default()`. -/
def Parser.default : Parser := ⟨[], EventBuilder.default⟩

/-- Embedding of `Parser::put`: `self.buf.put(bs)` appends the chunk. -/
def Parser.put (p : Parser) (bs : List Nat) : Parser :=
  { p with buf := p.buf ++ bs }

/-- The terminator-advance block of `Parser::parse_line`: given the buffer
remaining after `split_to(i)` (it starts with the found terminator byte),
advance two bytes only when more than two bytes remain and the first two are
CR LF, otherwise one byte; no advance on an empty buffer. -/
def advanceTerm (buf1 : List Nat) : List Nat :=
  if buf1 = [] then buf1
  else if 2 < buf1.length ∧ buf1.take 2 = [CR, LF] then buf1.drop 2
  else buf1.drop 1

/-- Embedding of `Parser::parse_line`: scan for the first CR or LF, split the
content off, then advance past the terminator via `advanceTerm`. -/
def Parser.parse_line (p : Parser) : Option (List Nat × Parser) :=
  match memchr2 CR LF p.buf with
  | none => none
  | some i => some (p.buf.take i, { p with buf := advanceTerm (p.buf.drop i) })

/-- The value a line yields when its first colon is at index `i`: the bytes
after the colon, with one space immediately after the colon dropped when
present (`Parser::next`, colon branch). -/
def fieldValue (line : List Nat) (i : Nat) : List Nat :=
  if i + 1 < line.length ∧ line.getD (i + 1) 0 = 32 then line.drop (i + 2)
  else line.drop (i + 1)

/-- The `while let` body of `Parser::next`, made structurally recursive on a
fuel argument; every iteration consumes at least one buffered byte, so
`buf.length + 1` units of fuel (supplied by `Parser.next`) always suffice —
see `nextFuel_stable`. -/
def nextFuel : Nat → Parser → Option (Except Error Event) × Parser
  | 0, p => (none, p)
  | fuel + 1, p =>
    match p.parse_line with
    | none => (none, p)
    | some (line, p1) =>
      if line = [] ∧ p1.builder.ready then
        let (ev, b2) := p1.builder.build_and_clear
        (some (.ok ev), { p1 with builder := b2 })
      else
        match memchr COLON line with
        | some 0 => nextFuel fuel p1
        | some (i + 1) =>
          let name := line.take (i + 1)
          let value := fieldValue line (i + 1)
          match p1.builder.add_field name value with
          | .error e => (some (.error e), p1)
          | .ok b2 => nextFuel fuel { p1 with builder := b2 }
        | none =>
          match p1.builder.add_field line [] with
          | .error e => (some (.error e), p1)
          | .ok b2 => nextFuel fuel { p1 with builder := b2 }

/-- Embedding of `Parser::next`. -/
def Parser.next (p : Parser) : Option (Except Error Event) × Parser :=
  nextFuel (p.buf.length + 1) p

/-- Caller-side draining loop: call `next` until it reports "no event yet",
collecting the results.  The fuel plays the same role as in `nextFuel`. -/
def drainFuel : Nat → Parser → List (Except Error Event) × Parser
  | 0, p => ([], p)
  | fuel + 1, p =>
    match p.next with
    | (none, p1) => ([], p1)
    | (some r, p1) =>
      let (rs, pf) := drainFuel fuel p1
      (r :: rs, pf)

/-- Feed a list of chunks to a parser, draining all available results after
each `put`, and collect every result in order. -/
def feedChunks : Parser → List (List Nat) → List (Except Error Event)
  | _, [] => []
  | p, c :: cs =>
    let p1 := p.put c
    let (rs, p2) := drainFuel (p1.buf.length + 1) p1
    rs ++ feedChunks p2 cs

/-- Embedding of `error::ErrorKind` (src/error.rs); the transport payload
`E` is never inspected and is dropped. -/
inductive ErrorKind where
  | sse : Error → ErrorKind
  | inner : ErrorKind
deriving DecidableEq

/-- A `Poll` value as returned by `Stream::poll_next`. -/
inductive Poll (α : Type) where
  | ready : α → Poll α
  | pending : Poll α
deriving DecidableEq

/-- One poll outcome of the upstream byte-chunk stream. -/
inductive UpPoll where
  | chunk : List Nat → UpPoll
  | ioErr : UpPoll
  | done : UpPoll
  | pend : UpPoll
deriving DecidableEq

namespace LibRs

/-- Embedding of the `Body` adapter that lib.rs actually compiles (lib.rs
declares `mod error; mod event; mod parser;` and no `mod body;`).  The
upstream stream is scripted as a list of poll outcomes, consumed one per
poll of the inner stream; an exhausted script stands for an upstream that
never becomes ready again. -/
structure Body where
  inner : List UpPoll
  parser : Parser
deriving DecidableEq

/-- Embedding of `<Body as Stream>::poll_next` from src/lib.rs: try the
parser once; on "no event yet" poll upstream once, and on a chunk `put` it
and return `Poll::Ready(None)` without parsing again. -/
def Body.poll_next (b : Body) : Poll (Option (Except ErrorKind Event)) × Body :=
  match b.parser.next with
  | (some (.ok ev), p1) => (.ready (some (.ok ev)), { b with parser := p1 })
  | (some (.error e), p1) => (.ready (some (.error (.sse e))), { b with parser := p1 })
  | (none, p1) =>
    match b.inner with
    | [] => (.pending, { b with parser := p1 })
    | .ioErr :: rest => (.ready (some (.error .inner)), ⟨rest, p1⟩)
    | .done :: rest => (.ready none, ⟨rest, p1⟩)
    | .pend :: rest => (.pending, ⟨rest, p1⟩)
    | .chunk bs :: rest => (.ready none, ⟨rest, p1.put bs⟩)

end LibRs

namespace BodyRs

/-- Embedding of the `Body` adapter of src/body.rs (not reachable from
lib.rs, which lacks a `mod body;` declaration): same state as the lib.rs
adapter. -/
structure Body where
  inner : List UpPoll
  parser : Parser
deriving DecidableEq

/-- The `loop` of `<Body as Stream>::poll_next` from src/body.rs: try the
parser; on "no event yet" poll upstream, and on a chunk `put` it and loop
back to the parser within the same poll. -/
def pollGo : List UpPoll → Parser → Poll (Option (Except ErrorKind Event)) × Body
  | [], p =>
    match p.next with
    | (some (.ok ev), p1) => (.ready (some (.ok ev)), ⟨[], p1⟩)
    | (some (.error e), p1) => (.ready (some (.error (.sse e))), ⟨[], p1⟩)
    | (none, p1) => (.pending, ⟨[], p1⟩)
  | u :: rest, p =>
    match p.next with
    | (some (.ok ev), p1) => (.ready (some (.ok ev)), ⟨u :: rest, p1⟩)
    | (some (.error e), p1) => (.ready (some (.error (.sse e))), ⟨u :: rest, p1⟩)
    | (none, p1) =>
      match u with
      | .ioErr => (.ready (some (.error .inner)), ⟨rest, p1⟩)
      | .done => (.ready none, ⟨rest, p1⟩)
      | .pend => (.pending, ⟨rest, p1⟩)
      | .chunk bs => pollGo rest (p1.put bs)

/-- Embedding of `<Body as Stream>::poll_next` from src/body.rs. -/
def Body.poll_next (b : Body) : Poll (Option (Except ErrorKind Event)) × Body :=
  pollGo b.inner b.parser

end BodyRs

/-- The effect of one non-terminating iteration of the `Parser::next` loop on
the builder: skip a comment line, or dispatch the classified field. -/
def lineStep (b : EventBuilder) (line : List Nat) : Except Error EventBuilder :=
  match memchr COLON line with
  | some 0 => .ok b
  | some (i + 1) => b.add_field (line.take (i + 1)) (fieldValue line (i + 1))
  | none => b.add_field line []

/-- Sequence of `add_field` calls, stopping at the first error (the block
body of `Parser::next` applied to a list of already-classified fields). -/
def foldAddFields : EventBuilder → List (List Nat × List Nat) → Except Error EventBuilder
  | b, [] => .ok b
  | b, nv :: fs =>
    match b.add_field nv.1 nv.2 with
    | .error e => .error e
    | .ok b1 => foldAddFields b1 fs

/-- An LF-terminated `retry` field line with value `v`. -/
def retryLine (v : List Nat) : List Nat := retryName ++ COLON :: v ++ [LF]

/-! ## Basic lemmas about the embedded code -/

theorem memchr2_lt {a b : Nat} : ∀ {l : List Nat} {i : Nat},
    memchr2 a b l = some i → i < l.length := by
  intro l
  induction l with
  | nil => intro i h; simp [memchr2] at h
  | cons c cs ih =>
    intro i h
    simp only [memchr2] at h
    split at h
    · cases h; simp
    · cases hm : memchr2 a b cs with
      | none => rw [hm] at h; simp at h
      | some j =>
        rw [hm] at h
        simp only [Option.map_some', Option.some.injEq] at h
        subst h
        have := ih hm
        simp
        omega

theorem advanceTerm_lt {buf1 : List Nat} (h : buf1 ≠ []) :
    (advanceTerm buf1).length < buf1.length := by
  have hlen : 0 < buf1.length := List.length_pos.mpr h
  unfold advanceTerm
  rw [if_neg h]
  split
  · simp; omega
  · simp; omega

theorem parse_line_lt {p p1 : Parser} {line : List Nat}
    (h : p.parse_line = some (line, p1)) : p1.buf.length < p.buf.length := by
  unfold Parser.parse_line at h
  cases hm : memchr2 CR LF p.buf with
  | none => rw [hm] at h; simp at h
  | some i =>
    rw [hm] at h
    simp only [Option.some.injEq, Prod.mk.injEq] at h
    have hi := memchr2_lt hm
    have hdrop : p.buf.drop i ≠ [] := by
      intro hcon
      have := congrArg List.length hcon
      simp at this
      omega
    have hlt := advanceTerm_lt hdrop
    have hbuf : p1.buf = advanceTerm (p.buf.drop i) := by
      rw [← h.2]
    rw [hbuf]
    calc (advanceTerm (p.buf.drop i)).length
        < (p.buf.drop i).length := hlt
      _ ≤ p.buf.length := by simp

/-- Once the fuel exceeds the buffer length the result of `nextFuel` no
longer depends on it: the fuel is a pure termination device and
`Parser.next` computes the Rust loop. -/
theorem nextFuel_stable : ∀ (m : Nat), ∀ (n : Nat), ∀ (p : Parser),
    p.buf.length < m → p.buf.length < n → nextFuel m p = nextFuel n p := by
  intro m
  induction m with
  | zero => intro n p hm _; exact absurd hm (Nat.not_lt_zero _)
  | succ m ih =>
    intro n p hm hn
    cases n with
    | zero => exact absurd hn (Nat.not_lt_zero _)
    | succ n =>
      cases hpl : p.parse_line with
      | none => simp [nextFuel, hpl]
      | some lp =>
        obtain ⟨line, p1⟩ := lp
        have hlt : p1.buf.length < p.buf.length := parse_line_lt hpl
        simp only [nextFuel, hpl]
        by_cases hcond : line = [] ∧ p1.builder.ready = true
        · simp [hcond]
        · rw [if_neg hcond, if_neg hcond]
          cases hc : memchr COLON line with
          | none =>
            simp only [hc]
            cases haf : p1.builder.add_field line [] with
            | error e => simp [haf]
            | ok b2 =>
              simp only [haf]
              exact ih n { p1 with builder := b2 } (by show p1.buf.length < m; omega)
                (by show p1.buf.length < n; omega)
          | some j =>
            cases j with
            | zero =>
              simp only [hc]
              exact ih n p1 (by omega) (by omega)
            | succ i =>
              simp only [hc]
              cases haf : p1.builder.add_field (line.take (i + 1)) (fieldValue line (i + 1)) with
              | error e => simp [haf]
              | ok b2 =>
                simp only [haf]
                exact ih n { p1 with builder := b2 } (by show p1.buf.length < m; omega)
                  (by show p1.buf.length < n; omega)

/-- With no terminator byte buffered, any amount of fuel reports "no event
yet" and leaves the state untouched. -/
theorem nextFuel_no_term {p : Parser} (h : memchr2 CR LF p.buf = none) :
    ∀ n : Nat, nextFuel n p = (none, p) := by
  intro n
  cases n with
  | zero => rfl
  | succ n => simp [nextFuel, Parser.parse_line, h]

/-- When adequately fuelled, a "no event yet" answer can only arise with no
terminator byte left in the returned buffer. -/
theorem nextFuel_none : ∀ {n : Nat} {p p' : Parser}, p.buf.length < n →
    nextFuel n p = (none, p') → memchr2 CR LF p'.buf = none := by
  intro n
  induction n with
  | zero => intro p p' hm _; exact absurd hm (Nat.not_lt_zero _)
  | succ n ih =>
    intro p p' hm h
    cases hpl : p.parse_line with
    | none =>
      simp only [nextFuel, hpl, Prod.mk.injEq] at h
      rw [← h.2]
      cases hm2 : memchr2 CR LF p.buf with
      | none => rfl
      | some i => rw [Parser.parse_line, hm2] at hpl; simp at hpl
    | some lp =>
      obtain ⟨line, p1⟩ := lp
      have hlt : p1.buf.length < p.buf.length := parse_line_lt hpl
      simp only [nextFuel, hpl] at h
      by_cases hcond : line = [] ∧ p1.builder.ready = true
      · rw [if_pos hcond] at h
        simp at h
      · rw [if_neg hcond] at h
        cases hc : memchr COLON line with
        | none =>
          simp only [hc] at h
          cases haf : p1.builder.add_field line [] with
          | error e => simp [haf] at h
          | ok b2 =>
            simp only [haf] at h
            exact ih (by show p1.buf.length < n; omega) h
        | some j =>
          simp only [hc] at h
          cases j with
          | zero => exact ih (by omega) h
          | succ i =>
            cases haf : p1.builder.add_field (line.take (i + 1)) (fieldValue line (i + 1)) with
            | error e => simp [haf] at h
            | ok b2 =>
              simp only [haf] at h
              exact ih (by show p1.buf.length < n; omega) h

theorem memchr2_append {a b : Nat} : ∀ {l : List Nat} (r : List Nat), a ∉ l → b ∉ l →
    memchr2 a b (l ++ b :: r) = some l.length := by
  intro l
  induction l with
  | nil => intro r _ _; simp [memchr2]
  | cons c cs ih =>
    intro r ha hb
    have hca : ¬(c = a ∨ c = b) := by
      rintro (rfl | rfl)
      · exact ha (List.mem_cons_self ..)
      · exact hb (List.mem_cons_self ..)
    have ha' : a ∉ cs := fun h => ha (List.mem_cons_of_mem _ h)
    have hb' : b ∉ cs := fun h => hb (List.mem_cons_of_mem _ h)
    simp [memchr2, hca, ih r ha' hb']

theorem advanceTerm_lf (rest : List Nat) : advanceTerm (LF :: rest) = rest := by
  unfold advanceTerm
  rw [if_neg (by simp)]
  rw [if_neg (by rintro ⟨-, h2⟩; simp [LF, CR] at h2)]
  simp

theorem parse_line_cons {l : List Nat} (rest : List Nat) (b : EventBuilder)
    (h13 : CR ∉ l) (h10 : LF ∉ l) :
    Parser.parse_line ⟨l ++ LF :: rest, b⟩ = some (l, ⟨rest, b⟩) := by
  have hm : memchr2 CR LF ((⟨l ++ LF :: rest, b⟩ : Parser).buf) = some l.length :=
    memchr2_append rest h13 h10
  unfold Parser.parse_line
  rw [hm]
  simp only [List.take_left, List.drop_left, advanceTerm_lf]

/-- One loop iteration of `Parser::next` on a buffer whose first line is `l`
terminated by a lone LF: when the blank-line dispatch does not fire, the
iteration performs `lineStep` and continues (or aborts) on the rest. -/
theorem nextFuel_step (fuel : Nat) (l rest : List Nat) (b : EventBuilder)
    (h13 : CR ∉ l) (h10 : LF ∉ l) (hnd : ¬(l = [] ∧ b.ready = true)) :
    nextFuel (fuel + 1) ⟨l ++ LF :: rest, b⟩ =
      (match lineStep b l with
       | .ok b2 => nextFuel fuel ⟨rest, b2⟩
       | .error e => (some (.error e), ⟨rest, b⟩)) := by
  have hpl := parse_line_cons rest b h13 h10
  simp only [nextFuel, hpl]
  rw [if_neg hnd]
  unfold lineStep
  cases hc : memchr COLON l with
  | none =>
    simp only [hc]
    cases haf : b.add_field l [] with
    | error e => simp [haf]
    | ok b2 => simp [haf]
  | some j =>
    cases j with
    | zero => simp only [hc]
    | succ i =>
      simp only [hc]
      cases haf : b.add_field (l.take (i + 1)) (fieldValue l (i + 1)) with
      | error e => simp [haf]
      | ok b2 => simp [haf]

theorem next_cons_ok {l : List Nat} (rest : List Nat) {b b2 : EventBuilder}
    (h13 : CR ∉ l) (h10 : LF ∉ l) (hnd : ¬(l = [] ∧ b.ready = true))
    (hstep : lineStep b l = .ok b2) :
    Parser.next ⟨l ++ LF :: rest, b⟩ = Parser.next ⟨rest, b2⟩ := by
  unfold Parser.next
  rw [nextFuel_step ((⟨l ++ LF :: rest, b⟩ : Parser).buf.length) l rest b h13 h10 hnd]
  simp only [hstep]
  exact nextFuel_stable _ _ _ (by simp only [List.length_append, List.length_cons]; omega)
    (by simp)

theorem next_cons_error {l : List Nat} (rest : List Nat) {b : EventBuilder} {e : Error}
    (h13 : CR ∉ l) (h10 : LF ∉ l) (hnd : ¬(l = [] ∧ b.ready = true))
    (hstep : lineStep b l = .error e) :
    Parser.next ⟨l ++ LF :: rest, b⟩ = (some (.error e), ⟨rest, b⟩) := by
  unfold Parser.next
  rw [nextFuel_step ((⟨l ++ LF :: rest, b⟩ : Parser).buf.length) l rest b h13 h10 hnd]
  simp only [hstep]

theorem memchr2_append_hit {a b c : Nat} (hc : c = a ∨ c = b) :
    ∀ {l : List Nat} (r : List Nat), a ∉ l → b ∉ l →
    memchr2 a b (l ++ c :: r) = some l.length := by
  intro l
  induction l with
  | nil => intro r _ _; simp [memchr2, hc]
  | cons d ds ih =>
    intro r ha hb
    have hda : ¬(d = a ∨ d = b) := by
      rintro (rfl | rfl)
      · exact ha (List.mem_cons_self ..)
      · exact hb (List.mem_cons_self ..)
    have ha' : a ∉ ds := fun h => ha (List.mem_cons_of_mem _ h)
    have hb' : b ∉ ds := fun h => hb (List.mem_cons_of_mem _ h)
    simp [memchr2, hda, ih r ha' hb']

theorem advanceTerm_cr {rest : List Nat} (h : rest.head? ≠ some LF) :
    advanceTerm (CR :: rest) = rest := by
  cases rest with
  | nil => decide
  | cons c r' =>
    have hc : c ≠ LF := fun hcon => h (by simp [hcon])
    unfold advanceTerm
    rw [if_neg (by simp)]
    rw [if_neg (by rintro ⟨-, htake⟩; simp [List.take, CR, LF] at htake; exact hc (by simp [LF, htake]))]
    simp

theorem advanceTerm_crlf {rest : List Nat} (h : rest ≠ []) :
    advanceTerm (CR :: LF :: rest) = rest := by
  unfold advanceTerm
  rw [if_neg (by simp)]
  rw [if_pos ⟨by have := List.length_pos.mpr h; simp; omega, rfl⟩]
  simp

theorem parse_line_cons_cr {l : List Nat} (rest : List Nat) (b : EventBuilder)
    (h13 : CR ∉ l) (h10 : LF ∉ l) (hh : rest.head? ≠ some LF) :
    Parser.parse_line ⟨l ++ CR :: rest, b⟩ = some (l, ⟨rest, b⟩) := by
  have hm : memchr2 CR LF ((⟨l ++ CR :: rest, b⟩ : Parser).buf) = some l.length :=
    memchr2_append_hit (Or.inl rfl) rest h13 h10
  unfold Parser.parse_line
  rw [hm]
  simp only [List.take_left, List.drop_left, advanceTerm_cr hh]

theorem parse_line_cons_crlf {l : List Nat} (rest : List Nat) (b : EventBuilder)
    (h13 : CR ∉ l) (h10 : LF ∉ l) (hne : rest ≠ []) :
    Parser.parse_line ⟨l ++ CR :: LF :: rest, b⟩ = some (l, ⟨rest, b⟩) := by
  have hm : memchr2 CR LF ((⟨l ++ CR :: LF :: rest, b⟩ : Parser).buf) = some l.length :=
    memchr2_append_hit (Or.inl rfl) (LF :: rest) h13 h10
  unfold Parser.parse_line
  rw [hm]
  simp only [List.take_left, List.drop_left, advanceTerm_crlf hne]

theorem parse_line_crlf_end {l : List Nat} (b : EventBuilder)
    (h13 : CR ∉ l) (h10 : LF ∉ l) :
    Parser.parse_line ⟨l ++ [CR, LF], b⟩ = some (l, ⟨[LF], b⟩) := by
  have hm : memchr2 CR LF ((⟨l ++ [CR, LF], b⟩ : Parser).buf) = some l.length :=
    memchr2_append_hit (Or.inl rfl) [LF] h13 h10
  unfold Parser.parse_line
  rw [hm]
  simp only [List.take_left, List.drop_left]
  rw [(by decide : advanceTerm [CR, LF] = [LF])]

/-- One loop iteration of `Parser::next` abstracted over the extracted line:
whenever `parse_line` yields line `l` and successor state `⟨rest, b⟩` and the
blank-line dispatch does not fire, a failing `lineStep` makes `next` return
the error with exactly that successor state. -/
theorem next_step_error {buf l rest : List Nat} {b : EventBuilder} {e : Error}
    (hpl : Parser.parse_line ⟨buf, b⟩ = some (l, ⟨rest, b⟩))
    (hnd : ¬(l = [] ∧ b.ready = true))
    (hstep : lineStep b l = .error e) :
    Parser.next ⟨buf, b⟩ = (some (.error e), ⟨rest, b⟩) := by
  unfold Parser.next
  simp only [nextFuel, hpl]
  rw [if_neg hnd]
  unfold lineStep at hstep
  cases hc : memchr COLON l with
  | none =>
    simp only [hc] at hstep
    simp only [hc, hstep]
  | some j =>
    cases j with
    | zero =>
      simp only [hc] at hstep
      exact Except.noConfusion hstep
    | succ i =>
      simp only [hc] at hstep
      simp only [hc, hstep]

theorem add_field_invalid {b : EventBuilder} {n v : List Nat} (h : utf8Valid v = false) :
    b.add_field n v = .error .utf8 := by
  simp [EventBuilder.add_field, h]

theorem add_field_nil (b : EventBuilder) : b.add_field [] [] = .ok b := by
  unfold EventBuilder.add_field
  rw [if_pos (by decide : utf8Valid [] = true),
    if_neg (by decide : ¬(([] : List Nat) = eventName)),
    if_neg (by decide : ¬(([] : List Nat) = dataName)),
    if_neg (fun hcon => absurd hcon.1 (by decide : ¬(([] : List Nat) = idName))),
    if_neg (fun hcon => absurd hcon.1 (by decide : ¬(([] : List Nat) = retryName)))]

theorem asciiValid : ∀ {v : List Nat}, (∀ c ∈ v, c ≤ 127) → utf8Valid v = true := by
  intro v
  induction v with
  | nil => intro _; rfl
  | cons c cs ih =>
    intro h
    have hc : c ≤ 127 := h c (List.mem_cons_self ..)
    have hb : utf8Byte c = some none := by unfold utf8Byte; rw [if_pos hc]
    show utf8Go none (c :: cs) = true
    rw [utf8Go, hb]
    exact ih fun d hd => h d (List.mem_cons_of_mem _ hd)

theorem add_field_data (b : EventBuilder) (v : List Nat) (h : utf8Valid v = true) :
    b.add_field dataName v = .ok { b with data := some (dataJoined b.data v) } := by
  unfold EventBuilder.add_field
  rw [if_pos h, if_neg (by decide : ¬(dataName = eventName)), if_pos rfl]

theorem add_field_id (b : EventBuilder) (v : List Nat) (h : utf8Valid v = true)
    (h0 : 0 ∉ v) :
    b.add_field idName v = .ok { b with last_event_id := some v } := by
  unfold EventBuilder.add_field
  rw [if_pos h, if_neg (by decide : ¬(idName = eventName)),
    if_neg (by decide : ¬(idName = dataName)), if_pos ⟨rfl, h0⟩]

theorem add_field_id_nul (b : EventBuilder) (v : List Nat) (h : utf8Valid v = true)
    (h0 : 0 ∈ v) :
    b.add_field idName v = .ok b := by
  unfold EventBuilder.add_field
  rw [if_pos h, if_neg (by decide : ¬(idName = eventName)),
    if_neg (by decide : ¬(idName = dataName)),
    if_neg (fun hcon => hcon.2 h0),
    if_neg (fun hcon => absurd hcon.1 (by decide : ¬(idName = retryName)))]

theorem add_field_retry (b : EventBuilder) (v : List Nat) (h : utf8Valid v = true)
    (hd : v.all (fun c => 48 ≤ c && c ≤ 57) = true) :
    b.add_field retryName v = .ok b := by
  unfold EventBuilder.add_field
  rw [if_pos h, if_neg (by decide : ¬(retryName = eventName)),
    if_neg (by decide : ¬(retryName = dataName)),
    if_neg (fun hcon => absurd hcon.1 (by decide : ¬(retryName = idName))),
    if_pos ⟨rfl, hd⟩]

theorem add_field_preserves_id {b b' : EventBuilder} {n v : List Nat}
    (hn : n ≠ idName) (h : b.add_field n v = .ok b') :
    b'.last_event_id = b.last_event_id := by
  unfold EventBuilder.add_field at h
  split_ifs at h with h1 h2 h3 h4 h5
  all_goals
    first
    | exact absurd h4.1 hn
    | exact Except.noConfusion h
    | (injection h with h; subst h; rfl)

theorem foldAddFields_id_none : ∀ {fs : List (List Nat × List Nat)} {b b' : EventBuilder},
    (∀ nv ∈ fs, nv.1 ≠ idName) → b.last_event_id = none →
    foldAddFields b fs = .ok b' → b'.last_event_id = none := by
  intro fs
  induction fs with
  | nil =>
    intro b b' _ hb h
    simp only [foldAddFields, Except.ok.injEq] at h
    exact h ▸ hb
  | cons nv fs ih =>
    intro b b' hns hb h
    simp only [foldAddFields] at h
    cases haf : b.add_field nv.1 nv.2 with
    | error e => simp only [haf] at h; exact Except.noConfusion h
    | ok b1 =>
      simp only [haf] at h
      have hpres := add_field_preserves_id (hns nv (List.mem_cons_self ..)) haf
      exact ih (fun x hx => hns x (List.mem_cons_of_mem _ hx)) (hpres.trans hb) h

theorem getD_len_append (A x : List Nat) (c d : Nat) :
    (A ++ c :: x).getD A.length d = c := by
  induction A with
  | nil => rfl
  | cons a A ih => simpa [List.getD] using ih

/-! ## Claim theorems -/

/-- Claim C1.  The claim asserts that whenever the byte at the first CR/LF
offset is CR and the following byte exists and equals LF, both bytes are
consumed, in particular when the CRLF pair lies at the very end of the
buffer.  The code guards the two-byte advance with `2 < self.buf.len()`, so
with buffer `"a\r\n"` (CRLF at the very end) only the CR is consumed and the
LF stays buffered; with one more byte after the pair both are consumed. -/
theorem c1_line_extraction_crlf_at_end :
    Parser.parse_line ⟨[97, CR, LF], EventBuilder.default⟩ =
      some ([97], ⟨[LF], EventBuilder.default⟩) ∧
    Parser.parse_line ⟨[97, CR, LF, 120], EventBuilder.default⟩ =
      some ([97], ⟨[120], EventBuilder.default⟩) := by
  exact ⟨by decide, by decide⟩

/-- Claim C2.  The adapter compiled by lib.rs (the only one reachable: lib.rs
has no `mod body;`) is started fresh, upstream yields one chunk holding a
complete event `"data:x\n\n"`: the claim says the chunk is fed via `put` and
parsing is retried in the same poll, yielding the event.  The lib.rs code
instead returns `Poll::Ready(None)` (stream end) right after `put`; the
src/body.rs loop behaves as the claim describes. -/
theorem c2_adapter_poll_contract :
    LibRs.Body.poll_next ⟨[UpPoll.chunk [100, 97, 116, 97, 58, 120, 10, 10]], Parser.default⟩ =
      (Poll.ready none, ⟨[], ⟨[100, 97, 116, 97, 58, 120, 10, 10], EventBuilder.default⟩⟩) ∧
    BodyRs.Body.poll_next ⟨[UpPoll.chunk [100, 97, 116, 97, 58, 120, 10, 10]], Parser.default⟩ =
      (Poll.ready (some (.ok ⟨[], [120], none⟩)), ⟨[], Parser.default⟩) := by
  exact ⟨by decide, by decide⟩

/-- Claim C3.  Chunk-boundary independence fails: `"data:a\r\ndata:b\n\n"`
fed as one chunk yields one event with data `"a\nb"`, while fed one byte at
a time it yields two events with data `"a"` and `"b"` (the CR is consumed
alone when it is the last buffered byte, and the later LF then dispatches
the builder as a blank line). -/
theorem c3_chunk_boundary_dependence :
    feedChunks Parser.default
        [[100, 97, 116, 97, 58, 97, 13, 10, 100, 97, 116, 97, 58, 98, 10, 10]] =
      [.ok ⟨[], [97, LF, 98], none⟩] ∧
    feedChunks Parser.default
        ([100, 97, 116, 97, 58, 97, 13, 10, 100, 97, 116, 97, 58, 98, 10, 10].map
          fun c => [c]) =
      [.ok ⟨[], [97], none⟩, .ok ⟨[], [98], none⟩] := by
  exact ⟨by decide, by decide⟩

/-- Claim C4 (counterexample).  Buffer `"data:a\ndata:\xFF\r\n"`, fresh
builder: the offending line's CRLF terminator lies at the very end of the
buffer, and `next()` returns the invalid-UTF-8 error with the terminator's
LF still buffered — not fully consumed as the claim states — and the
subsequent call does not parse the remaining bytes normally: the leftover LF
dispatches the pending block as an event although the input contains no
blank line. -/
theorem c4_counterexample :
    Parser.next ⟨[100, 97, 116, 97, 58, 97, 10, 100, 97, 116, 97, 58, 255, 13, 10],
        EventBuilder.default⟩ =
      (some (.error .utf8), ⟨[LF], ⟨none, some [97], none⟩⟩) ∧
    Parser.next ⟨[LF], ⟨none, some [97], none⟩⟩ =
      (some (.ok ⟨[], [97], none⟩), ⟨[], EventBuilder.default⟩) := by
  exact ⟨by decide, by decide⟩

/-- Claim C4 (amended).  A complete buffered line whose field value is not
valid UTF-8 makes the `next()` call that reaches it return the invalid-UTF-8
error once with the builder untouched; when the line's terminator is a lone
LF, a lone CR (next byte, if any, not LF), or a CRLF pair followed by at
least one more buffered byte, the line's content and full terminator are
consumed, so the returned state parses the remaining bytes normally — but
when the terminator is a CRLF pair at the very end of the buffer only the CR
is consumed and the terminator's LF stays buffered.  Concretely
`"data:\xFF\ndata:ok\n\n"` yields the error and then a normal event. -/
theorem c4_utf8_failure_semantics :
    (∀ (l rest : List Nat) (b : EventBuilder) (i : Nat),
      CR ∉ l → LF ∉ l → memchr COLON l = some (i + 1) →
      utf8Valid (fieldValue l (i + 1)) = false →
      Parser.next ⟨l ++ LF :: rest, b⟩ = (some (.error .utf8), ⟨rest, b⟩)) ∧
    (∀ (l rest : List Nat) (b : EventBuilder) (i : Nat),
      CR ∉ l → LF ∉ l → rest.head? ≠ some LF → memchr COLON l = some (i + 1) →
      utf8Valid (fieldValue l (i + 1)) = false →
      Parser.next ⟨l ++ CR :: rest, b⟩ = (some (.error .utf8), ⟨rest, b⟩)) ∧
    (∀ (l rest : List Nat) (b : EventBuilder) (i : Nat),
      CR ∉ l → LF ∉ l → rest ≠ [] → memchr COLON l = some (i + 1) →
      utf8Valid (fieldValue l (i + 1)) = false →
      Parser.next ⟨l ++ CR :: LF :: rest, b⟩ = (some (.error .utf8), ⟨rest, b⟩)) ∧
    (∀ (l : List Nat) (b : EventBuilder) (i : Nat),
      CR ∉ l → LF ∉ l → memchr COLON l = some (i + 1) →
      utf8Valid (fieldValue l (i + 1)) = false →
      Parser.next ⟨l ++ [CR, LF], b⟩ = (some (.error .utf8), ⟨[LF], b⟩)) ∧
    drainFuel 16 ⟨[100, 97, 116, 97, 58, 255, 10, 100, 97, 116, 97, 58, 111, 107, 10, 10],
        EventBuilder.default⟩ =
      ([.error .utf8, .ok ⟨[], [111, 107], none⟩], ⟨[], EventBuilder.default⟩) := by
  have key : ∀ (l : List Nat) (b : EventBuilder) (i : Nat),
      memchr COLON l = some (i + 1) → utf8Valid (fieldValue l (i + 1)) = false →
      ¬(l = [] ∧ b.ready = true) ∧ lineStep b l = .error .utf8 := by
    intro l b i hc hval
    have hne : l ≠ [] := by rintro rfl; simp [memchr] at hc
    refine ⟨fun hcon => hne hcon.1, ?_⟩
    unfold lineStep
    simp only [hc]
    exact add_field_invalid hval
  refine ⟨?_, ?_, ?_, ?_, by decide⟩
  · intro l rest b i h13 h10 hc hval
    obtain ⟨hnd, hstep⟩ := key l b i hc hval
    exact next_step_error (parse_line_cons rest b h13 h10) hnd hstep
  · intro l rest b i h13 h10 hh hc hval
    obtain ⟨hnd, hstep⟩ := key l b i hc hval
    exact next_step_error (parse_line_cons_cr rest b h13 h10 hh) hnd hstep
  · intro l rest b i h13 h10 hne hc hval
    obtain ⟨hnd, hstep⟩ := key l b i hc hval
    exact next_step_error (parse_line_cons_crlf rest b h13 h10 hne) hnd hstep
  · intro l b i h13 h10 hc hval
    obtain ⟨hnd, hstep⟩ := key l b i hc hval
    exact next_step_error (parse_line_crlf_end b h13 h10) hnd hstep

theorem c4_utf8_failure_semantics_witness :
    Parser.next ⟨[100, 97, 116, 97, 58, 255] ++ LF :: [120], EventBuilder.default⟩ =
      (some (.error .utf8), ⟨[120], EventBuilder.default⟩) ∧
    Parser.next ⟨[100, 97, 116, 97, 58, 255] ++ CR :: [120], EventBuilder.default⟩ =
      (some (.error .utf8), ⟨[120], EventBuilder.default⟩) ∧
    Parser.next ⟨[100, 97, 116, 97, 58, 255] ++ CR :: LF :: [120], EventBuilder.default⟩ =
      (some (.error .utf8), ⟨[120], EventBuilder.default⟩) ∧
    Parser.next ⟨[100, 97, 116, 97, 58, 255] ++ [CR, LF], EventBuilder.default⟩ =
      (some (.error .utf8), ⟨[LF], EventBuilder.default⟩) :=
  ⟨c4_utf8_failure_semantics.1 [100, 97, 116, 97, 58, 255] [120] EventBuilder.default 3
     (by decide) (by decide) (by decide) (by decide),
   c4_utf8_failure_semantics.2.1 [100, 97, 116, 97, 58, 255] [120] EventBuilder.default 3
     (by decide) (by decide) (by decide) (by decide) (by decide),
   c4_utf8_failure_semantics.2.2.1 [100, 97, 116, 97, 58, 255] [120] EventBuilder.default 3
     (by decide) (by decide) (by decide) (by decide) (by decide),
   c4_utf8_failure_semantics.2.2.2.1 [100, 97, 116, 97, 58, 255] EventBuilder.default 3
     (by decide) (by decide) (by decide) (by decide)⟩

/-- Claim C5.  An `id` field whose value has no NUL byte sets
`last_event_id` to the value verbatim (so an empty value gives `some []`);
an `id` value containing NUL is silently ignored, leaving the previous
`last_event_id` untouched; and a block whose fields never use the `id` name
builds an Event with `last_event_id = none`. -/
theorem c5_id_field_semantics :
    (∀ (b : EventBuilder) (v : List Nat), utf8Valid v = true → 0 ∉ v →
      b.add_field idName v = .ok { b with last_event_id := some v }) ∧
    (∀ (b : EventBuilder) (v : List Nat), utf8Valid v = true → 0 ∈ v →
      b.add_field idName v = .ok b) ∧
    (∀ (fs : List (List Nat × List Nat)) (b' : EventBuilder),
      (∀ nv ∈ fs, nv.1 ≠ idName) →
      foldAddFields EventBuilder.default fs = .ok b' →
      b'.last_event_id = none ∧ b'.build_and_clear.1.last_event_id = none) := by
  refine ⟨add_field_id, add_field_id_nul, ?_⟩
  intro fs b' hns h
  have hnone : b'.last_event_id = none := foldAddFields_id_none hns rfl h
  exact ⟨hnone, hnone⟩

theorem c5_id_field_semantics_witness :
    EventBuilder.default.add_field idName [] =
      .ok { EventBuilder.default with last_event_id := some [] } ∧
    (⟨none, none, some [49]⟩ : EventBuilder).add_field idName [48, 0] =
      .ok ⟨none, none, some [49]⟩ ∧
    ((⟨none, some [120], none⟩ : EventBuilder).last_event_id = none ∧
      (⟨none, some [120], none⟩ : EventBuilder).build_and_clear.1.last_event_id = none) :=
  ⟨c5_id_field_semantics.1 EventBuilder.default [] (by decide) (by decide),
   c5_id_field_semantics.2.1 ⟨none, none, some [49]⟩ [48, 0] (by decide) (by decide),
   c5_id_field_semantics.2.2 [(dataName, [120])] ⟨none, some [120], none⟩
     (by decide) (by decide)⟩

/-- Claim C6.  A `data` field appends to the accumulated data with a single
LF separator inserted before the new value when data already has content,
and sets it directly otherwise; `"data:foo\ndata:bar\n\n"` yields exactly
one Event whose data is `"foo\nbar"`. -/
theorem c6_data_accumulation :
    (∀ (b : EventBuilder) (v d : List Nat), utf8Valid v = true → b.data = some d →
      b.add_field dataName v = .ok { b with data := some (d ++ LF :: v) }) ∧
    (∀ (b : EventBuilder) (v : List Nat), utf8Valid v = true → b.data = none →
      b.add_field dataName v = .ok { b with data := some v }) ∧
    drainFuel 20 ⟨[100, 97, 116, 97, 58, 102, 111, 111, 10,
        100, 97, 116, 97, 58, 98, 97, 114, 10, 10], EventBuilder.default⟩ =
      ([.ok ⟨[], [102, 111, 111, LF, 98, 97, 114], none⟩], ⟨[], EventBuilder.default⟩) := by
  refine ⟨?_, ?_, by decide⟩
  · intro b v d h hd
    rw [add_field_data b v h, hd]
    rfl
  · intro b v h hd
    rw [add_field_data b v h, hd]
    rfl

theorem c6_data_accumulation_witness :
    (⟨none, some [102], none⟩ : EventBuilder).add_field dataName [98] =
      .ok { (⟨none, some [102], none⟩ : EventBuilder) with data := some ([102] ++ LF :: [98]) } ∧
    EventBuilder.default.add_field dataName [102] =
      .ok { EventBuilder.default with data := some [102] } :=
  ⟨c6_data_accumulation.1 ⟨none, some [102], none⟩ [98] [102] (by decide) (by decide),
   c6_data_accumulation.2.1 EventBuilder.default [102] (by decide) (by decide)⟩

/-- Claim C7.  A blank line reached while the builder is not ready emits
nothing and the same `next()` call continues with the rest of the buffer;
concretely a comment-only block followed by a data block yields that block's
event within one call, and a comment-only block alone yields nothing. -/
theorem c7_empty_block_discard :
    (∀ (b : EventBuilder) (rest : List Nat), b.ready = false →
      Parser.next ⟨LF :: rest, b⟩ = Parser.next ⟨rest, b⟩) ∧
    Parser.next ⟨[58, 99, 10, 10, 100, 97, 116, 97, 58, 120, 10, 10], EventBuilder.default⟩ =
      (some (.ok ⟨[], [120], none⟩), ⟨[], EventBuilder.default⟩) ∧
    Parser.next ⟨[58, 99, 10, 10], EventBuilder.default⟩ =
      (none, ⟨[], EventBuilder.default⟩) := by
  refine ⟨?_, by decide, by decide⟩
  intro b rest hrdy
  have hnd : ¬(([] : List Nat) = [] ∧ b.ready = true) := by
    rintro ⟨-, hr⟩
    rw [hrdy] at hr
    exact Bool.false_ne_true hr
  have hstep : lineStep b [] = .ok b := by
    unfold lineStep
    simp only [memchr]
    exact add_field_nil b
  have hcons := next_cons_ok rest (by simp) (by simp) hnd hstep
  simpa using hcons

theorem c7_empty_block_discard_witness :
    Parser.next ⟨LF :: [58], EventBuilder.default⟩ = Parser.next ⟨[58], EventBuilder.default⟩ :=
  c7_empty_block_discard.1 EventBuilder.default [58] (by decide)

/-- Claim C8.  `put` appends the chunk's bytes to the end of the internal
buffer and changes nothing else: the builder is untouched, and the operation
is total (no error path exists). -/
theorem c8_put_frame_condition (p : Parser) (c : List Nat) :
    (p.put c).buf = p.buf ++ c ∧ (p.put c).builder = p.builder :=
  ⟨rfl, rfl⟩

/-- Claim C9.  Once `next()` has answered "no event yet", calling it again
without an intervening `put` answers "no event yet" again and leaves the
whole parser state (buffer and builder) unchanged. -/
theorem c9_next_idempotent (p q : Parser) (h : p.next = (none, q)) :
    q.next = (none, q) := by
  have hterm : memchr2 CR LF q.buf = none := nextFuel_none (Nat.lt_succ_self _) h
  exact nextFuel_no_term hterm _

theorem c9_next_idempotent_witness :
    Parser.next ⟨[100], EventBuilder.default⟩ = (none, ⟨[100], EventBuilder.default⟩) :=
  c9_next_idempotent ⟨[100], EventBuilder.default⟩ ⟨[100], EventBuilder.default⟩ (by decide)

theorem retry_lineStep {v : List Nat} (hdv : ∀ c ∈ v, 48 ≤ c ∧ c ≤ 57)
    (b : EventBuilder) : lineStep b (retryName ++ COLON :: v) = .ok b := by
  have hcolon : memchr COLON (retryName ++ COLON :: v) = some (4 + 1) := by
    simp [memchr, retryName, COLON]
  have hname : (retryName ++ COLON :: v).take (4 + 1) = retryName :=
    List.take_left retryName (COLON :: v)
  have hsplit : retryName ++ COLON :: v = (retryName ++ [COLON]) ++ v := by
    simp
  have hval : fieldValue (retryName ++ COLON :: v) (4 + 1) = v := by
    unfold fieldValue
    rw [if_neg]
    · rw [hsplit]
      exact List.drop_left (retryName ++ [COLON]) v
    · rintro ⟨hlt, hsp⟩
      cases v with
      | nil => simp [retryName] at hlt
      | cons c v' =>
        have hc := hdv c (List.mem_cons_self ..)
        have hget : (retryName ++ COLON :: c :: v').getD (4 + 1 + 1) 0 = c :=
          getD_len_append (retryName ++ [COLON]) v' c 0
        rw [hget] at hsp
        omega
  unfold lineStep
  simp only [hcolon, hname, hval]
  have hascii : utf8Valid v = true := asciiValid fun c hc => by
    have := hdv c hc
    omega
  have hall : v.all (fun c => 48 ≤ c && c ≤ 57) = true := by
    rw [List.all_eq_true]
    intro c hc
    have := hdv c hc
    simp only [Bool.and_eq_true, decide_eq_true_eq]
    omega
  exact add_field_retry b v hascii hall

/-- Claim C10.  A block consisting solely of `retry` fields with all-digit
values, terminated by a blank line, produces no Event: a valid retry field
is validated and discarded without touching any builder field, so the
builder never becomes ready and the blank line dispatches nothing. -/
theorem c10_retry_only_block (vs : List (List Nat))
    (hd : ∀ v ∈ vs, ∀ c ∈ v, 48 ≤ c ∧ c ≤ 57) :
    Parser.next ⟨(vs.map retryLine).flatten ++ [LF], EventBuilder.default⟩ =
      (none, ⟨[], EventBuilder.default⟩) := by
  induction vs with
  | nil =>
    simp only [List.map_nil, List.flatten, List.nil_append]
    decide
  | cons v vs ih =>
    have hdv : ∀ c ∈ v, 48 ≤ c ∧ c ≤ 57 := hd v (List.mem_cons_self ..)
    have hrest := ih fun w hw => hd w (List.mem_cons_of_mem _ hw)
    have h13 : CR ∉ retryName ++ COLON :: v := by
      intro hmem
      rcases List.mem_append.mp hmem with hin | hin
      · exact absurd hin (by decide)
      · rcases List.mem_cons.mp hin with heq | hin
        · exact absurd heq (by decide)
        · have := hdv CR hin
          simp [CR] at this
    have h10 : LF ∉ retryName ++ COLON :: v := by
      intro hmem
      rcases List.mem_append.mp hmem with hin | hin
      · exact absurd hin (by decide)
      · rcases List.mem_cons.mp hin with heq | hin
        · exact absurd heq (by decide)
        · have := hdv LF hin
          simp [LF] at this
    have hnd : ¬(retryName ++ COLON :: v = [] ∧ EventBuilder.default.ready = true) := by
      rintro ⟨hnil, -⟩
      simp [retryName] at hnil
    have hbuf : ((v :: vs).map retryLine).flatten ++ [LF]
        = (retryName ++ COLON :: v) ++ LF :: ((vs.map retryLine).flatten ++ [LF]) := by
      simp [retryLine, List.append_assoc]
    rw [hbuf, next_cons_ok ((vs.map retryLine).flatten ++ [LF]) h13 h10 hnd
      (retry_lineStep hdv EventBuilder.default)]
    exact hrest

theorem c10_retry_only_block_witness :
    Parser.next ⟨([[49]].map retryLine).flatten ++ [LF], EventBuilder.default⟩ =
      (none, ⟨[], EventBuilder.default⟩) :=
  c10_retry_only_block [[49]] (by decide)

end SseAgent
